import Mathlib

/- Shallow embedding of src/assets/model.cpp and model.h (skeletal animation
   pose evaluation).  Float scalars are modelled as real numbers; glm vectors,
   quaternions and 4x4 matrices as records of reals; std::vector as List;
   std::map<std::string, uint32_t> as an association list queried through
   mapFind; C's fmod as exact real truncated remainder. -/

noncomputable section

/-- Component record for glm::vec3 (x, y, z). -/
structure Vec3 where
  x : ℝ
  y : ℝ
  z : ℝ

instance : Inhabited Vec3 := ⟨⟨0, 0, 0⟩⟩

/-- Component record for glm::quat (x, y, z, w). -/
structure Quat where
  x : ℝ
  y : ℝ
  z : ℝ
  w : ℝ

instance : Inhabited Quat := ⟨⟨0, 0, 0, 1⟩⟩

/-- Record of the 16 entries of a glm::mat4.  Field mIJ is the entry in
row I and column J of the matrix in the usual mathematical convention
(glm stores it column major as m[J][I]). -/
@[ext]
structure Mat4 where
  m00 : ℝ
  m01 : ℝ
  m02 : ℝ
  m03 : ℝ
  m10 : ℝ
  m11 : ℝ
  m12 : ℝ
  m13 : ℝ
  m20 : ℝ
  m21 : ℝ
  m22 : ℝ
  m23 : ℝ
  m30 : ℝ
  m31 : ℝ
  m32 : ℝ
  m33 : ℝ

/-- The identity matrix glm::mat4(1). -/
def mat4id : Mat4 :=
  ⟨1, 0, 0, 0,
   0, 1, 0, 0,
   0, 0, 1, 0,
   0, 0, 0, 1⟩

instance : Inhabited Mat4 := ⟨mat4id⟩

/-- Matrix product, row i of a times column j of b (glm operator* on mat4). -/
def Mat4.mul (a b : Mat4) : Mat4 :=
  ⟨a.m00*b.m00 + a.m01*b.m10 + a.m02*b.m20 + a.m03*b.m30,
   a.m00*b.m01 + a.m01*b.m11 + a.m02*b.m21 + a.m03*b.m31,
   a.m00*b.m02 + a.m01*b.m12 + a.m02*b.m22 + a.m03*b.m32,
   a.m00*b.m03 + a.m01*b.m13 + a.m02*b.m23 + a.m03*b.m33,
   a.m10*b.m00 + a.m11*b.m10 + a.m12*b.m20 + a.m13*b.m30,
   a.m10*b.m01 + a.m11*b.m11 + a.m12*b.m21 + a.m13*b.m31,
   a.m10*b.m02 + a.m11*b.m12 + a.m12*b.m22 + a.m13*b.m32,
   a.m10*b.m03 + a.m11*b.m13 + a.m12*b.m23 + a.m13*b.m33,
   a.m20*b.m00 + a.m21*b.m10 + a.m22*b.m20 + a.m23*b.m30,
   a.m20*b.m01 + a.m21*b.m11 + a.m22*b.m21 + a.m23*b.m31,
   a.m20*b.m02 + a.m21*b.m12 + a.m22*b.m22 + a.m23*b.m32,
   a.m20*b.m03 + a.m21*b.m13 + a.m22*b.m23 + a.m23*b.m33,
   a.m30*b.m00 + a.m31*b.m10 + a.m32*b.m20 + a.m33*b.m30,
   a.m30*b.m01 + a.m31*b.m11 + a.m32*b.m21 + a.m33*b.m31,
   a.m30*b.m02 + a.m31*b.m12 + a.m32*b.m22 + a.m33*b.m32,
   a.m30*b.m03 + a.m31*b.m13 + a.m32*b.m23 + a.m33*b.m33⟩

/-- Determinant of a 3x3 matrix given entrywise (row by row). -/
def det3 (a b c d e f g h i : ℝ) : ℝ :=
  a * (e * i - f * h) - b * (d * i - f * g) + c * (d * h - e * g)

/-- Signed cofactor of entry (0,0) of a Mat4. -/
def cof00 (m : Mat4) : ℝ := det3 m.m11 m.m12 m.m13 m.m21 m.m22 m.m23 m.m31 m.m32 m.m33
/-- Signed cofactor of entry (0,1). -/
def cof01 (m : Mat4) : ℝ := -det3 m.m10 m.m12 m.m13 m.m20 m.m22 m.m23 m.m30 m.m32 m.m33
/-- Signed cofactor of entry (0,2). -/
def cof02 (m : Mat4) : ℝ := det3 m.m10 m.m11 m.m13 m.m20 m.m21 m.m23 m.m30 m.m31 m.m33
/-- Signed cofactor of entry (0,3). -/
def cof03 (m : Mat4) : ℝ := -det3 m.m10 m.m11 m.m12 m.m20 m.m21 m.m22 m.m30 m.m31 m.m32
/-- Signed cofactor of entry (1,0). -/
def cof10 (m : Mat4) : ℝ := -det3 m.m01 m.m02 m.m03 m.m21 m.m22 m.m23 m.m31 m.m32 m.m33
/-- Signed cofactor of entry (1,1). -/
def cof11 (m : Mat4) : ℝ := det3 m.m00 m.m02 m.m03 m.m20 m.m22 m.m23 m.m30 m.m32 m.m33
/-- Signed cofactor of entry (1,2). -/
def cof12 (m : Mat4) : ℝ := -det3 m.m00 m.m01 m.m03 m.m20 m.m21 m.m23 m.m30 m.m31 m.m33
/-- Signed cofactor of entry (1,3). -/
def cof13 (m : Mat4) : ℝ := det3 m.m00 m.m01 m.m02 m.m20 m.m21 m.m22 m.m30 m.m31 m.m32
/-- Signed cofactor of entry (2,0). -/
def cof20 (m : Mat4) : ℝ := det3 m.m01 m.m02 m.m03 m.m11 m.m12 m.m13 m.m31 m.m32 m.m33
/-- Signed cofactor of entry (2,1). -/
def cof21 (m : Mat4) : ℝ := -det3 m.m00 m.m02 m.m03 m.m10 m.m12 m.m13 m.m30 m.m32 m.m33
/-- Signed cofactor of entry (2,2). -/
def cof22 (m : Mat4) : ℝ := det3 m.m00 m.m01 m.m03 m.m10 m.m11 m.m13 m.m30 m.m31 m.m33
/-- Signed cofactor of entry (2,3). -/
def cof23 (m : Mat4) : ℝ := -det3 m.m00 m.m01 m.m02 m.m10 m.m11 m.m12 m.m30 m.m31 m.m32
/-- Signed cofactor of entry (3,0). -/
def cof30 (m : Mat4) : ℝ := -det3 m.m01 m.m02 m.m03 m.m11 m.m12 m.m13 m.m21 m.m22 m.m23
/-- Signed cofactor of entry (3,1). -/
def cof31 (m : Mat4) : ℝ := det3 m.m00 m.m02 m.m03 m.m10 m.m12 m.m13 m.m20 m.m22 m.m23
/-- Signed cofactor of entry (3,2). -/
def cof32 (m : Mat4) : ℝ := -det3 m.m00 m.m01 m.m03 m.m10 m.m11 m.m13 m.m20 m.m21 m.m23
/-- Signed cofactor of entry (3,3). -/
def cof33 (m : Mat4) : ℝ := det3 m.m00 m.m01 m.m02 m.m10 m.m11 m.m12 m.m20 m.m21 m.m22

/-- Determinant of a Mat4 (Laplace expansion along the first row). -/
def det4 (m : Mat4) : ℝ :=
  m.m00 * cof00 m + m.m01 * cof01 m + m.m02 * cof02 m + m.m03 * cof03 m

/-- Inverse of a Mat4 computed as adjugate over determinant, the formula glm's
inverse uses (entry (i,j) is the cofactor of (j,i) divided by det). -/
def inverse4 (m : Mat4) : Mat4 :=
  let d := det4 m
  ⟨cof00 m / d, cof10 m / d, cof20 m / d, cof30 m / d,
   cof01 m / d, cof11 m / d, cof21 m / d, cof31 m / d,
   cof02 m / d, cof12 m / d, cof22 m / d, cof32 m / d,
   cof03 m / d, cof13 m / d, cof23 m / d, cof33 m / d⟩

/-- Translation matrix produced by glm::translate(glm::mat4(1), v). -/
def translateM (v : Vec3) : Mat4 :=
  ⟨1, 0, 0, v.x,
   0, 1, 0, v.y,
   0, 0, 1, v.z,
   0, 0, 0, 1⟩

/-- Scale matrix produced by glm::scale(glm::mat4(1), s). -/
def scaleM (v : Vec3) : Mat4 :=
  ⟨v.x, 0, 0, 0,
   0, v.y, 0, 0,
   0, 0, v.z, 0,
   0, 0, 0, 1⟩

/-- Rotation matrix produced by glm::toMat4 on a quaternion (glm mat3_cast
formula, which assumes a unit quaternion and is applied verbatim). -/
def quatToMat4 (q : Quat) : Mat4 :=
  ⟨1 - 2*(q.y*q.y + q.z*q.z), 2*(q.x*q.y - q.w*q.z), 2*(q.x*q.z + q.w*q.y), 0,
   2*(q.x*q.y + q.w*q.z), 1 - 2*(q.x*q.x + q.z*q.z), 2*(q.y*q.z - q.w*q.x), 0,
   2*(q.x*q.z - q.w*q.y), 2*(q.y*q.z + q.w*q.x), 1 - 2*(q.x*q.x + q.y*q.y), 0,
   0, 0, 0, 1⟩

/-- Truncation toward zero of a real number, the rounding C casts and C's
fmod use. -/
def rtrunc (q : ℝ) : ℤ :=
  if 0 ≤ q then ⌊q⌋ else ⌈q⌉

/-- Exact model of C's fmod: x - y * trunc(x / y), with the sign of x. -/
def fmodR (x y : ℝ) : ℝ :=
  x - y * (rtrunc (x / y) : ℝ)

theorem rtrunc_of_nonneg {q : ℝ} (h : 0 ≤ q) : rtrunc q = ⌊q⌋ := by
  simp [rtrunc, h]

theorem fmodR_add_int_mul {x d : ℝ} (k : ℤ) (hd : 0 < d) (hx : 0 ≤ x)
    (hxk : 0 ≤ x + k * d) : fmodR (x + k * d) d = fmodR x d := by
  have hd0 : d ≠ 0 := ne_of_gt hd
  have hdiv : (x + k * d) / d = x / d + k := by
    field_simp
  have h1 : rtrunc ((x + k * d) / d) = ⌊x / d⌋ + k := by
    rw [rtrunc_of_nonneg (div_nonneg hxk hd.le), hdiv, Int.floor_add_int]
  have h2 : rtrunc (x / d) = ⌊x / d⌋ := rtrunc_of_nonneg (div_nonneg hx hd.le)
  simp only [fmodR, h1, h2]
  push_cast
  ring

set_option maxHeartbeats 1600000

/-- Multiplying the adjugate-over-determinant formula by the original matrix
gives the identity whenever the determinant does not vanish: the global
inverse transform stored by the Avatar really is the matrix inverse. -/
theorem inverse4_mul_self {m : Mat4} (h : det4 m ≠ 0) :
    Mat4.mul (inverse4 m) m = mat4id := by
  ext <;>
    (simp only [inverse4, Mat4.mul, mat4id]
     rw [div_mul_eq_mul_div, div_mul_eq_mul_div, div_mul_eq_mul_div,
       div_mul_eq_mul_div, div_add_div_same, div_add_div_same,
       div_add_div_same, div_eq_iff h]
     simp only [det4, cof00, cof01, cof02, cof03, cof10, cof11, cof12, cof13,
       cof20, cof21, cof22, cof23, cof30, cof31, cof32, cof33, det3]
     ring)

/-- One (time, value) sample of a keyframe track (struct KeyFrame<T>). -/
structure KeyFrame (T : Type) where
  time : ℝ
  value : T

instance {T : Type} [Inhabited T] : Inhabited (KeyFrame T) := ⟨⟨0, default⟩⟩

/-- The bracketing pair of samples returned by get_key_frames
(struct KeyFrames<T>). -/
structure KeyFrames (T : Type) where
  current_key_frame : KeyFrame T
  next_key_frame : KeyFrame T

/-- An animation channel: the target bone name and its three keyframe tracks
(struct BoneAnimation). -/
structure BoneAnimation where
  name : String
  position_keys : List (KeyFrame Vec3)
  rotation_keys : List (KeyFrame Quat)
  scale_keys : List (KeyFrame Vec3)

/-- An animation clip (class Animation): name, duration in ticks, playback
rate and the per-bone channels. -/
structure Animation where
  name : String
  duration : ℝ
  ticks_per_second : ℝ
  channels : List BoneAnimation

/-- A node of the bone tree (struct Bone): name, bind-local transform and the
list of child bones.  The parent back-pointer of the source is never read by
the pose algorithm and is not modelled. -/
inductive Bone : Type where
  | mk : String → Mat4 → List Bone → Bone

/-- Name of a bone. -/
def Bone.name : Bone → String
  | .mk n _ _ => n

/-- Bind-local transform of a bone (field transformation). -/
def Bone.transformation : Bone → Mat4
  | .mk _ m _ => m

/-- Children of a bone. -/
def Bone.children : Bone → List Bone
  | .mk _ _ cs => cs

/-- Offset matrix and last computed world matrix of one skinned bone
(struct BoneSpace). -/
structure BoneSpace where
  offset_matrix : Mat4
  final_world_matrix : Mat4

/-- Default BoneSpace used to model reading std::vector out of range in the
total semantics. -/
def bsDefault : BoneSpace := ⟨mat4id, mat4id⟩

/-- The pose evaluator state (class Avatar).  bones_map models the
std::map<std::string, uint32_t> as an association list in insertion order;
it is only ever queried through mapFind. -/
structure Avatar where
  bone_transforms : List BoneSpace
  current_transforms : List Mat4
  global_inverse_transform : Mat4
  root_node : Bone
  bones_map : List (String × ℕ)
  amount_of_bones : ℕ

/-- Lookup in the modelled std::map (map.find / operator[] read). -/
def mapFind : List (String × ℕ) → String → Option ℕ
  | [], _ => none
  | (k, v) :: rest, n => if n = k then some v else mapFind rest n

/-- Linear scan of the clip's channels for the one naming this bone
(find_node_animation); returns none where the source returns nullptr. -/
def find_node_animation (animation : Animation) (node_name : String) : Option BoneAnimation :=
  go animation.channels
where
  /-- Scan of the channel list in order. -/
  go : List BoneAnimation → Option BoneAnimation
    | [] => none
    | c :: rest => if c.name = node_name then some c else go rest

/-- Normalization of a quaternion, glm::normalize: divide each component by
the square root of the component dot product. -/
def qnormalize (q : Quat) : Quat :=
  let len := Real.sqrt (q.x * q.x + q.y * q.y + q.z * q.z + q.w * q.w)
  ⟨q.x / len, q.y / len, q.z / len, q.w / len⟩

/-- The quaternion blend of the source (lerp_quat): normalize both endpoints,
take the component dot product, negate the second quaternion when the dot
product is negative, blend component-wise, and return without renormalizing
(the final glm::normalize is commented out in the source). -/
def lerp_quat (a0 b0 : Quat) (blend : ℝ) : Quat :=
  let a := qnormalize a0
  let b := qnormalize b0
  let dot_product := a.x * b.x + a.y * b.y + a.z * b.z + a.w * b.w
  let inversed_blend := 1 - blend
  if dot_product < 0 then
    ⟨a.x * inversed_blend + blend * (-b.x),
     a.y * inversed_blend + blend * (-b.y),
     a.z * inversed_blend + blend * (-b.z),
     a.w * inversed_blend + blend * (-b.w)⟩
  else
    ⟨a.x * inversed_blend + blend * b.x,
     a.y * inversed_blend + blend * b.y,
     a.z * inversed_blend + blend * b.z,
     a.w * inversed_blend + blend * b.w⟩

/-- Component-wise linear interpolation of the source (lerp_vec3):
first + blend * (second - first). -/
def lerp_vec3 (first second : Vec3) (blend : ℝ) : Vec3 :=
  ⟨first.x + blend * (second.x - first.x),
   first.y + blend * (second.y - first.y),
   first.z + blend * (second.z - first.z)⟩

/-- Transcription of the loop of get_frame_index: scan i upward while at
least two samples remain and return the first i with time < keys[i+1].time;
the counter starts at the i argument. -/
def gfiAux {T : Type} (time : ℝ) : List (KeyFrame T) → ℕ → Option ℕ
  | _k1 :: k2 :: rest, i =>
      if time < k2.time then some i else gfiAux time (k2 :: rest) (i + 1)
  | _, _ => none

/-- The bracket search of the source (get_frame_index): index of the first
sample pair whose second time exceeds the query, 0 when the scan falls
through (also when the query is at or past the final sample). -/
def get_frame_index {T : Type} (time : ℝ) (keys : List (KeyFrame T)) : ℕ :=
  (gfiAux time keys 0).getD 0

/-- The pair lookup of the source (get_key_frames) in the total semantics:
keys[i] and keys[i+1] read with a default out of range. -/
def get_key_frames {T : Type} [Inhabited T] (animation_time : ℝ)
    (current : List (KeyFrame T)) : KeyFrames T :=
  let current_index := get_frame_index animation_time current
  let next_index := current_index + 1
  ⟨current.getD current_index default, current.getD next_index default⟩

/-- The same pair lookup with the std::vector accesses modelled as fallible:
none exactly when current[index] or current[index + 1] is out of bounds. -/
def get_key_framesChecked {T : Type} (animation_time : ℝ)
    (current : List (KeyFrame T)) : Option (KeyFrames T) :=
  let current_index := get_frame_index animation_time current
  match current[current_index]?, current[current_index + 1]? with
  | some c, some n => some ⟨c, n⟩
  | _, _ => none

/-- The blend fraction of the source (get_blend_factor):
(time - current.time) / (next.time - current.time), with Lean's
division-by-zero convention when the two times coincide. -/
def get_blend_factor {T : Type} (keyFramesPair : KeyFrames T) (time : ℝ) : ℝ :=
  let deltaTime := keyFramesPair.next_key_frame.time - keyFramesPair.current_key_frame.time
  (time - keyFramesPair.current_key_frame.time) / deltaTime

/-- The blend fraction with the float division modelled as fallible: dividing
by zero (an IEEE divide-by-zero) is none. -/
def get_blend_factorChecked {T : Type} (keyFramesPair : KeyFrames T) (time : ℝ) : Option ℝ :=
  let deltaTime := keyFramesPair.next_key_frame.time - keyFramesPair.current_key_frame.time
  if deltaTime = 0 then none
  else some ((time - keyFramesPair.current_key_frame.time) / deltaTime)

/-- Bracket a vector track at a time and blend the two sample values, as the
body of process_node_hierarchy does for the scaling and translation tracks. -/
def sampleVec (animationTime : ℝ) (keys : List (KeyFrame Vec3)) : Vec3 :=
  let keyFrames := get_key_frames animationTime keys
  lerp_vec3 keyFrames.current_key_frame.value keyFrames.next_key_frame.value
    (get_blend_factor keyFrames animationTime)

/-- Bracket the rotation track at a time and blend the two sample
quaternions, as the body of process_node_hierarchy does. -/
def sampleQuat (animationTime : ℝ) (keys : List (KeyFrame Quat)) : Quat :=
  let keyFrames := get_key_frames animationTime keys
  lerp_quat keyFrames.current_key_frame.value keyFrames.next_key_frame.value
    (get_blend_factor keyFrames animationTime)

/-- The nodeTransform computed at the top of process_node_hierarchy: when the
clip has a channel for this bone, translation * rotation * scale from the
three independently bracketed and blended tracks; otherwise the bone's
bind-local transform. -/
def nodeLocalTransform (animationTime : ℝ) (animation : Animation) (node : Bone) : Mat4 :=
  match find_node_animation animation node.name with
  | some nodeAnimation =>
      Mat4.mul
        (Mat4.mul (translateM (sampleVec animationTime nodeAnimation.position_keys))
          (quatToMat4 (sampleQuat animationTime nodeAnimation.rotation_keys)))
        (scaleM (sampleVec animationTime nodeAnimation.scale_keys))
  | none => node.transformation

/-- The binding write of process_node_hierarchy: when the bone name is in
bones_map, overwrite final_world_matrix at its binding index with
global_inverse_transform * globalTransform * offset_matrix; otherwise leave
the state untouched. -/
def applyBinding (model : Avatar) (nodeName : String) (globalTransform : Mat4) : Avatar :=
  match mapFind model.bones_map nodeName with
  | some boneIndex =>
      { model with
          bone_transforms := model.bone_transforms.set boneIndex
            ⟨(model.bone_transforms.getD boneIndex bsDefault).offset_matrix,
             Mat4.mul
               (Mat4.mul model.global_inverse_transform globalTransform)
               ((model.bone_transforms.getD boneIndex bsDefault).offset_matrix)⟩ }
  | none => model

mutual

/-- The recursive tree walk process_node_hierarchy: compute the node's local
transform, accumulate the global transform, write the binding entry, then
recurse into the children in order. -/
def processNode (model : Avatar) (animationTime : ℝ) (node : Bone)
    (parentTransform : Mat4) (animation : Animation) : Avatar :=
  match node with
  | .mk nodeName nodeBind cs =>
      let nodeTransform := nodeLocalTransform animationTime animation (.mk nodeName nodeBind cs)
      let globalTransform := Mat4.mul parentTransform nodeTransform
      processChildren (applyBinding model nodeName globalTransform) animationTime cs
        globalTransform animation
termination_by sizeOf node

/-- Left-to-right processing of a list of sibling bones, threading the
avatar state (the children loop of process_node_hierarchy). -/
def processChildren (model : Avatar) (animationTime : ℝ) (cs : List Bone)
    (parentTransform : Mat4) (animation : Animation) : Avatar :=
  match cs with
  | [] => model
  | c :: rest =>
      processChildren (processNode model animationTime c parentTransform animation)
        animationTime rest parentTransform animation
termination_by sizeOf cs

end

/-- Avatar::calculate_pose: convert the query time to ticks, wrap it into the
clip duration with fmod, run the tree walk from the root with the identity
parent transform, then copy the final world matrices into the output array
current_transforms. -/
def calculate_pose (A : Avatar) (time : ℝ) (animation : Animation) : Avatar :=
  let time_in_ticks := time * animation.ticks_per_second
  let current_time := fmodR time_in_ticks animation.duration
  let A' := processNode A current_time A.root_node mat4id animation
  { A' with
      current_transforms :=
        (List.range A'.amount_of_bones).map
          (fun i => (A'.bone_transforms.getD i bsDefault).final_world_matrix) }

mutual

/-- Names of all bones of a subtree, root first, depth first. -/
def treeNames : Bone → List String
  | .mk n _ cs => n :: treeNamesList cs
termination_by b => sizeOf b

/-- Names of all bones of a forest, depth first. -/
def treeNamesList : List Bone → List String
  | [] => []
  | c :: cs => treeNames c ++ treeNamesList cs
termination_by cs => sizeOf cs

end

mutual

/-- The depth-first visit order of the tree walk: each visited bone paired
with the accumulated parent transform it is visited under. -/
def visitsNode (t : ℝ) (anim : Animation) (node : Bone) (p : Mat4) :
    List (Bone × Mat4) :=
  match node with
  | .mk n m cs =>
      (Bone.mk n m cs, p) ::
        visitsList t anim cs (Mat4.mul p (nodeLocalTransform t anim (.mk n m cs)))
termination_by sizeOf node

/-- Visit order of a forest of siblings under a common parent transform. -/
def visitsList (t : ℝ) (anim : Animation) (cs : List Bone) (p : Mat4) :
    List (Bone × Mat4) :=
  match cs with
  | [] => []
  | c :: rest => visitsNode t anim c p ++ visitsList t anim rest p
termination_by sizeOf cs

end

/-- The indices that the walk over the given bone names can write: each name
resolved through the binding map, misses dropped. -/
def writtenIdx (m : List (String × ℕ)) (names : List String) : List ℕ :=
  names.filterMap (mapFind m)

/-- A scene-graph node handed over by the asset importer (aiNode), with the
bind-local transform already converted to the math library's layout. -/
inductive SceneNode : Type where
  | mk : String → Mat4 → List SceneNode → SceneNode

/-- Name of a scene node. -/
def SceneNode.name : SceneNode → String
  | .mk n _ _ => n

/-- Bind-local transform of a scene node. -/
def SceneNode.transformation : SceneNode → Mat4
  | .mk _ m _ => m

/-- Children of a scene node. -/
def SceneNode.children : SceneNode → List SceneNode
  | .mk _ _ cs => cs

/-- A skinned-mesh bone record handed over by the importer (aiBone): name and
offset matrix (the vertex weights are out of scope). -/
structure AiBone where
  name : String
  offset_matrix : Mat4

/-- The mesh as consumed here: its bone list (aiMesh, skin data only). -/
structure AiMesh where
  bones : List AiBone

/-- A parsed animation as handed over by the importer (aiAnimation), with the
channels already transcribed: ticks_per_second may be 0, meaning
unspecified. -/
structure AiAnimation where
  name : String
  duration : ℝ
  ticks_per_second : ℝ
  channels : List BoneAnimation

/-- The imported scene (aiScene): root node tree, meshes and animations. -/
structure AiScene where
  rootNode : SceneNode
  meshes : List AiMesh
  animations : List AiAnimation

mutual

/-- The recursive Bone constructor: copy name and transform of a scene node
and build the children (Bone::Bone). -/
def buildBone : SceneNode → Bone
  | .mk n m cs => Bone.mk n m (buildBones cs)
termination_by sn => sizeOf sn

/-- Build a list of sibling bones from scene nodes. -/
def buildBones : List SceneNode → List Bone
  | [] => []
  | c :: cs => buildBone c :: buildBones cs
termination_by cs => sizeOf cs

end

/-- One iteration of the bone loop of Avatar::Avatar: a first-seen name gets
the next index, a pushed entry carrying its offset matrix and a map entry;
a duplicate name is skipped. -/
def addMeshBone (st : Avatar) (b : AiBone) : Avatar :=
  match mapFind st.bones_map b.name with
  | none =>
      { st with
          amount_of_bones := st.amount_of_bones + 1,
          bone_transforms := st.bone_transforms ++ [⟨b.offset_matrix, mat4id⟩],
          bones_map := st.bones_map ++ [(b.name, st.amount_of_bones)] }
  | some _ => st

/-- The default-constructed Avatar the constructor starts from. -/
def avatarInit : Avatar :=
  ⟨[], [], mat4id, Bone.mk "" mat4id [], [], 0⟩

/-- Avatar::Avatar(scene, mesh): fold the mesh bones into the binding table,
store the inverse of the root node's bind transform, build the bone tree and
size the output array. -/
def mkAvatar (scene : AiScene) (mesh : AiMesh) : Avatar :=
  let st := mesh.bones.foldl addMeshBone avatarInit
  { st with
      global_inverse_transform := inverse4 scene.rootNode.transformation,
      root_node := buildBone scene.rootNode,
      current_transforms := List.replicate st.amount_of_bones mat4id }

/-- Outcome of running a constructor whose only failure mode in the source is
dereferencing missing data: crash models the dereference of a null scene or
of an element past the end of an empty array. -/
inductive Loaded (α : Type) : Type where
  | crash : Loaded α
  | ok : α → Loaded α
  deriving DecidableEq

/-- Animation::Animation(path) after the importer ran: the source only logs
when the scene is null and then dereferences scene->mAnimations[0]
unconditionally, so a null scene or an empty animation array is a crash;
otherwise the clip is built, defaulting ticks_per_second to 25 when the file
says 0. -/
def loadAnimation (scene : Option AiScene) : Loaded Animation :=
  match scene with
  | none => Loaded.crash
  | some s =>
      match s.animations with
      | [] => Loaded.crash
      | a :: _ =>
          Loaded.ok
            ⟨a.name, a.duration,
             if a.ticks_per_second ≠ 0 then a.ticks_per_second else 25,
             a.channels⟩

/-- Model::Model(path) after the importer ran: the source only logs when the
scene is null and then dereferences scene->mMeshes[0] unconditionally, so a
null scene or an empty mesh array is a crash; otherwise the scene and first
mesh are retained (vertex transcription is out of scope). -/
def loadModel (scene : Option AiScene) : Loaded (AiScene × AiMesh) :=
  match scene with
  | none => Loaded.crash
  | some s =>
      match s.meshes with
      | [] => Loaded.crash
      | m :: _ => Loaded.ok (s, m)

theorem list_set_getD_self {α : Type} (l : List α) (i : ℕ) (d : α) :
    l.set i (l.getD i d) = l := by
  induction l generalizing i with
  | nil => simp
  | cons a t ih =>
    cases i with
    | zero => simp [List.getD]
    | succ j =>
      simp only [List.getD_cons_succ, List.set_cons_succ]
      rw [ih j]

theorem list_getD_set_ne {α : Type} (l : List α) {i j : ℕ} (v : α) (d : α)
    (h : j ≠ i) : (l.set i v).getD j d = l.getD j d := by
  induction l generalizing i j with
  | nil => simp
  | cons a t ih =>
    cases i with
    | zero =>
      cases j with
      | zero => exact absurd rfl h
      | succ j' => simp [List.getD_cons_succ]
    | succ i' =>
      cases j with
      | zero => simp [List.getD]
      | succ j' =>
        simp only [List.set_cons_succ, List.getD_cons_succ]
        exact ih (fun hj => h (by rw [hj]))

theorem list_getD_set_self {α : Type} (l : List α) {i : ℕ} (v : α) (d : α)
    (h : i < l.length) : (l.set i v).getD i d = v := by
  induction l generalizing i with
  | nil => simp at h
  | cons a t ih =>
    cases i with
    | zero => simp [List.getD]
    | succ j =>
      simp only [List.set_cons_succ, List.getD_cons_succ]
      exact ih (by simpa using h)

theorem list_getD_map {α β : Type} (f : α → β) (l : List α) (i : ℕ) (d : α) :
    (l.map f).getD i (f d) = f (l.getD i d) := by
  induction l generalizing i with
  | nil => simp [List.getD]
  | cons a t ih =>
    cases i with
    | zero => simp [List.getD]
    | succ j => simp [List.getD_cons_succ, ih]

/-- Fields of the pose evaluator that process_node_hierarchy never writes:
everything except the final world matrices. -/
def Preserves (A B : Avatar) : Prop :=
  B.global_inverse_transform = A.global_inverse_transform ∧
  B.bones_map = A.bones_map ∧
  B.amount_of_bones = A.amount_of_bones ∧
  B.root_node = A.root_node ∧
  B.current_transforms = A.current_transforms ∧
  B.bone_transforms.map BoneSpace.offset_matrix = A.bone_transforms.map BoneSpace.offset_matrix

theorem Preserves.refl (A : Avatar) : Preserves A A :=
  ⟨rfl, rfl, rfl, rfl, rfl, rfl⟩

theorem Preserves.trans {A B C : Avatar} (h1 : Preserves A B) (h2 : Preserves B C) :
    Preserves A C := by
  obtain ⟨hgi, hmp, ham, hrt, hcu, hof⟩ := h1
  obtain ⟨kgi, kmp, kam, krt, kcu, kof⟩ := h2
  exact ⟨kgi.trans hgi, kmp.trans hmp, kam.trans ham, krt.trans hrt,
    kcu.trans hcu, kof.trans hof⟩

theorem Preserves.len {A B : Avatar} (h : Preserves A B) :
    B.bone_transforms.length = A.bone_transforms.length := by
  have := congrArg List.length h.2.2.2.2.2
  simpa using this

theorem Preserves.offsetD {A B : Avatar} (h : Preserves A B) (i : ℕ) :
    (B.bone_transforms.getD i bsDefault).offset_matrix =
      (A.bone_transforms.getD i bsDefault).offset_matrix := by
  have h6 := h.2.2.2.2.2
  have hB := list_getD_map BoneSpace.offset_matrix B.bone_transforms i bsDefault
  have hA := list_getD_map BoneSpace.offset_matrix A.bone_transforms i bsDefault
  rw [← hB, ← hA, h6]

theorem applyBinding_preserves (model : Avatar) (n : String) (g : Mat4) :
    Preserves model (applyBinding model n g) := by
  unfold applyBinding
  cases h : mapFind model.bones_map n with
  | none => exact Preserves.refl model
  | some i =>
    refine ⟨rfl, rfl, rfl, rfl, rfl, ?_⟩
    rw [List.map_set]
    simp only
    rw [← list_getD_map BoneSpace.offset_matrix model.bone_transforms i bsDefault]
    exact list_set_getD_self _ i _

theorem applyBinding_getD_ne (model : Avatar) (n : String) (g : Mat4) {i : ℕ}
    (d : BoneSpace)
    (h : ∀ j, mapFind model.bones_map n = some j → i ≠ j) :
    (applyBinding model n g).bone_transforms.getD i d =
      model.bone_transforms.getD i d := by
  unfold applyBinding
  cases hm : mapFind model.bones_map n with
  | none => rfl
  | some j =>
    simp only
    exact list_getD_set_ne _ _ _ (h j hm)

theorem applyBinding_getD_written (model : Avatar) (n : String) (g : Mat4) {i : ℕ}
    (d : BoneSpace) (hm : mapFind model.bones_map n = some i)
    (hlen : i < model.bone_transforms.length) :
    (applyBinding model n g).bone_transforms.getD i d =
      ⟨(model.bone_transforms.getD i bsDefault).offset_matrix,
       Mat4.mul (Mat4.mul model.global_inverse_transform g)
         ((model.bone_transforms.getD i bsDefault).offset_matrix)⟩ := by
  unfold applyBinding
  rw [hm]
  simp only
  exact list_getD_set_self _ _ _ hlen

theorem writtenIdx_cons (m : List (String × ℕ)) (n : String) (ns : List String) :
    writtenIdx m (n :: ns) =
      match mapFind m n with
      | some j => j :: writtenIdx m ns
      | none => writtenIdx m ns := by
  cases h : mapFind m n <;> simp [writtenIdx, List.filterMap_cons, h]

theorem writtenIdx_append (m : List (String × ℕ)) (ns1 ns2 : List String) :
    writtenIdx m (ns1 ++ ns2) = writtenIdx m ns1 ++ writtenIdx m ns2 := by
  simp [writtenIdx]

mutual

theorem processNode_frame (model : Avatar) (t : ℝ) (node : Bone) (p : Mat4)
    (anim : Animation) :
    Preserves model (processNode model t node p anim) ∧
    ∀ i d, i ∉ writtenIdx model.bones_map (treeNames node) →
      (processNode model t node p anim).bone_transforms.getD i d =
        model.bone_transforms.getD i d := by
  cases node with
  | mk n m cs =>
    rw [processNode]
    have hB := applyBinding_preserves model n
      (Mat4.mul p (nodeLocalTransform t anim (Bone.mk n m cs)))
    set g := Mat4.mul p (nodeLocalTransform t anim (Bone.mk n m cs)) with hg
    set B := applyBinding model n g with hBdef
    have hC := processChildren_frame B t cs g anim
    constructor
    · exact Preserves.trans hB hC.1
    · intro i d hi
      rw [treeNames] at hi
      rw [writtenIdx_cons] at hi
      have hmapB : B.bones_map = model.bones_map := hB.2.1
      have hstep2 : (processChildren B t cs g anim).bone_transforms.getD i d =
          B.bone_transforms.getD i d := by
        apply hC.2
        rw [hmapB]
        cases hm : mapFind model.bones_map n <;> rw [hm] at hi <;> simp at hi
        · exact hi
        · exact hi.2
      rw [hstep2, hBdef]
      apply applyBinding_getD_ne
      intro j hj
      rw [hj] at hi
      simp at hi
      exact hi.1
termination_by sizeOf node

theorem processChildren_frame (model : Avatar) (t : ℝ) (cs : List Bone) (p : Mat4)
    (anim : Animation) :
    Preserves model (processChildren model t cs p anim) ∧
    ∀ i d, i ∉ writtenIdx model.bones_map (treeNamesList cs) →
      (processChildren model t cs p anim).bone_transforms.getD i d =
        model.bone_transforms.getD i d := by
  cases cs with
  | nil =>
    rw [processChildren]
    exact ⟨Preserves.refl model, fun i d _ => rfl⟩
  | cons c rest =>
    rw [processChildren]
    have hN := processNode_frame model t c p anim
    set B := processNode model t c p anim with hBdef
    have hR := processChildren_frame B t rest p anim
    constructor
    · exact Preserves.trans hN.1 hR.1
    · intro i d hi
      rw [treeNamesList, writtenIdx_append] at hi
      simp only [List.mem_append] at hi
      push_neg at hi
      have hmapB : B.bones_map = model.bones_map := hN.1.2.1
      have h2 : (processChildren B t rest p anim).bone_transforms.getD i d =
          B.bone_transforms.getD i d := by
        apply hR.2
        rw [hmapB]
        exact hi.2
      rw [h2]
      exact hN.2 i d hi.1
termination_by sizeOf cs

end

/-- Concrete single-bone skeleton used by witnesses: one bone named B. -/
def boneB : Bone := Bone.mk "B" mat4id []

/-- Concrete clip used by witnesses: duration 10 ticks at 1 tick per second,
one channel for B translating from the origin to (10,0,0) with identity
rotation and unit scale. -/
def anim0 : Animation :=
  ⟨"clip", 10, 1,
   [⟨"B",
     [⟨0, ⟨0, 0, 0⟩⟩, ⟨10, ⟨10, 0, 0⟩⟩],
     [⟨0, ⟨0, 0, 0, 1⟩⟩, ⟨10, ⟨0, 0, 0, 1⟩⟩],
     [⟨0, ⟨1, 1, 1⟩⟩, ⟨10, ⟨1, 1, 1⟩⟩]⟩]⟩

/-- Concrete pose evaluator over boneB with identity offset and global
inverse, binding B to index 0. -/
def A0 : Avatar :=
  ⟨[⟨mat4id, mat4id⟩], [mat4id], mat4id, boneB, [("B", 0)], 1⟩

/-- Concrete clip with no channels at all. -/
def animE : Animation := ⟨"empty", 10, 1, []⟩

/-- C10: for every time and every clip, calculate_pose leaves the global
inverse transform, the bone name-to-index map, the bone count, every
binding's offset matrix and the bone tree unchanged; it only writes the
bindings' final world matrices and the output array. -/
theorem c10_calculate_pose_only_outputs (A : Avatar) (t : ℝ) (anim : Animation) :
    (calculate_pose A t anim).global_inverse_transform = A.global_inverse_transform ∧
    (calculate_pose A t anim).bones_map = A.bones_map ∧
    (calculate_pose A t anim).amount_of_bones = A.amount_of_bones ∧
    (calculate_pose A t anim).root_node = A.root_node ∧
    (calculate_pose A t anim).bone_transforms.map BoneSpace.offset_matrix
      = A.bone_transforms.map BoneSpace.offset_matrix := by
  have h := (processNode_frame A (fmodR (t * anim.ticks_per_second) anim.duration)
    A.root_node mat4id anim).1
  exact ⟨h.1, h.2.1, h.2.2.1, h.2.2.2.1, h.2.2.2.2.2⟩

/-- C5: the blend factor is (time - prev.time) / (next.time - prev.time); the
division is well defined exactly when the two bracketing times differ, and
divides by zero (modelled as a failing operation) when they coincide. -/
theorem c5_blend_factor {T : Type} (kf : KeyFrames T) (time : ℝ) :
    get_blend_factor kf time =
      (time - kf.current_key_frame.time) /
        (kf.next_key_frame.time - kf.current_key_frame.time) ∧
    (kf.next_key_frame.time - kf.current_key_frame.time ≠ 0 →
      get_blend_factorChecked kf time = some (get_blend_factor kf time)) ∧
    (kf.current_key_frame.time = kf.next_key_frame.time →
      get_blend_factorChecked kf time = none) := by
  refine ⟨rfl, fun h => ?_, fun h => ?_⟩
  · simp only [get_blend_factorChecked, get_blend_factor]
    rw [if_neg h]
  · simp only [get_blend_factorChecked]
    rw [if_pos (sub_eq_zero_of_eq h.symm)]

/-- Concrete keyframe pair with distinct times for the C5 witness. -/
def kfW : KeyFrames Vec3 := ⟨⟨0, ⟨0, 0, 0⟩⟩, ⟨10, ⟨10, 0, 0⟩⟩⟩

/-- Concrete keyframe pair with equal times for the C5 witness. -/
def kfZ : KeyFrames Vec3 := ⟨⟨5, ⟨0, 0, 0⟩⟩, ⟨5, ⟨10, 0, 0⟩⟩⟩

theorem c5_blend_factor_witness :
    get_blend_factorChecked kfW 1 = some (get_blend_factor kfW 1) ∧
    get_blend_factorChecked kfZ 1 = none :=
  ⟨(c5_blend_factor kfW 1).2.1 (by norm_num [kfW]),
   (c5_blend_factor kfZ 1).2.2 (by norm_num [kfZ])⟩

/-- C6: a bone with no channel in the clip keeps its static bind-local
transform at every query time, and its children are visited under the
parent transform composed with exactly that bind-local transform. -/
theorem c6_no_channel_bind_local (anim : Animation) (b : Bone)
    (h : find_node_animation anim b.name = none) :
    (∀ t, nodeLocalTransform t anim b = b.transformation) ∧
    (∀ t p, visitsNode t anim b p =
      (b, p) :: visitsList t anim b.children (Mat4.mul p b.transformation)) := by
  have h1 : ∀ t, nodeLocalTransform t anim b = b.transformation := by
    intro t
    unfold nodeLocalTransform
    rw [h]
  refine ⟨h1, fun t p => ?_⟩
  cases b with
  | mk n m cs =>
    rw [visitsNode]
    rw [h1 t]
    simp [Bone.children, Bone.transformation]

theorem c6_no_channel_bind_local_witness :
    nodeLocalTransform 5 animE boneB = boneB.transformation ∧
    visitsNode 5 animE boneB mat4id =
      (boneB, mat4id) ::
        visitsList 5 animE boneB.children (Mat4.mul mat4id boneB.transformation) := by
  have h := c6_no_channel_bind_local animE boneB (by rfl)
  exact ⟨h.1 5, h.2 5 mat4id⟩

/-- C8: the source code, handed a null scene or a scene with no animations
or no meshes, does not construct an error value: it logs and then
dereferences the missing data (modelled as crash), for both the clip
constructor and the model constructor. -/
theorem c8_null_scene_dereference :
    loadAnimation none = Loaded.crash ∧
    loadAnimation (some ⟨SceneNode.mk "R" mat4id [], [], []⟩) = Loaded.crash ∧
    loadModel none = Loaded.crash ∧
    loadModel (some ⟨SceneNode.mk "R" mat4id [], [], []⟩) = Loaded.crash :=
  ⟨rfl, rfl, rfl, rfl⟩

theorem rtrunc_zero_of_Ico {q : ℝ} (h0 : 0 ≤ q) (h1 : q < 1) : rtrunc q = 0 := by
  rw [rtrunc_of_nonneg h0]
  exact Int.floor_eq_zero_iff.mpr (Set.mem_Ico.mpr ⟨h0, h1⟩)

theorem rtrunc_zero_of_Ioc_neg {q : ℝ} (h0 : -1 < q) (h1 : q < 0) : rtrunc q = 0 := by
  rw [rtrunc, if_neg (not_le.mpr h1)]
  exact Int.ceil_eq_zero_iff.mpr (Set.mem_Ioc.mpr ⟨h0, h1.le⟩)

theorem calculate_pose_congr_fmod {A : Avatar} {anim : Animation} {u v : ℝ}
    (h : fmodR (u * anim.ticks_per_second) anim.duration =
      fmodR (v * anim.ticks_per_second) anim.duration) :
    calculate_pose A u anim = calculate_pose A v anim := by
  simp only [calculate_pose]
  rw [h]

/-- C1 (amended): calculate_pose(t) and calculate_pose(t + k*duration/tps)
agree for every integer k as long as both query times are nonnegative (and
the clip has positive duration and rate), because both times wrap to the
same clip-local tick value under fmod. -/
theorem c1_looping (A : Avatar) (anim : Animation) (t : ℝ) (k : ℤ)
    (htps : 0 < anim.ticks_per_second) (hdur : 0 < anim.duration)
    (ht : 0 ≤ t) (ht' : 0 ≤ t + k * anim.duration / anim.ticks_per_second) :
    calculate_pose A (t + k * anim.duration / anim.ticks_per_second) anim =
      calculate_pose A t anim := by
  have htps0 : anim.ticks_per_second ≠ 0 := ne_of_gt htps
  have hmul : (t + k * anim.duration / anim.ticks_per_second) * anim.ticks_per_second
      = t * anim.ticks_per_second + k * anim.duration := by
    field_simp
  apply calculate_pose_congr_fmod
  rw [hmul]
  have hx : 0 ≤ t * anim.ticks_per_second := mul_nonneg ht htps.le
  have hxk : 0 ≤ t * anim.ticks_per_second + k * anim.duration := by
    rw [← hmul]
    exact mul_nonneg ht' htps.le
  exact fmodR_add_int_mul k hdur hx hxk

theorem c1_looping_witness :
    0 < anim0.ticks_per_second ∧ 0 < anim0.duration ∧ 0 ≤ (1 : ℝ) ∧
    0 ≤ (1 : ℝ) + (2 : ℤ) * anim0.duration / anim0.ticks_per_second ∧
    calculate_pose A0 (1 + (2 : ℤ) * anim0.duration / anim0.ticks_per_second) anim0 =
      calculate_pose A0 1 anim0 :=
  ⟨by norm_num [anim0], by norm_num [anim0], by norm_num, by norm_num [anim0],
   c1_looping A0 anim0 1 2 (by norm_num [anim0]) (by norm_num [anim0]) (by norm_num)
     (by norm_num [anim0])⟩

theorem fmod_eval_pos :
    fmodR ((1 : ℝ) * anim0.ticks_per_second) anim0.duration = 1 := by
  have h1 : (1 : ℝ) * anim0.ticks_per_second = 1 := by norm_num [anim0]
  have h2 : anim0.duration = 10 := by norm_num [anim0]
  rw [h1, h2]
  unfold fmodR
  rw [rtrunc_zero_of_Ico (by norm_num) (by norm_num)]
  norm_num

theorem fmod_eval_neg :
    fmodR (((1 : ℝ) + (-1 : ℤ) * anim0.duration / anim0.ticks_per_second) *
      anim0.ticks_per_second) anim0.duration = -9 := by
  have h1 : ((1 : ℝ) + (-1 : ℤ) * anim0.duration / anim0.ticks_per_second) *
      anim0.ticks_per_second = -9 := by
    norm_num [anim0]
  have h2 : anim0.duration = 10 := by norm_num [anim0]
  rw [h1, h2]
  unfold fmodR
  rw [rtrunc_zero_of_Ioc_neg (by norm_num) (by norm_num)]
  norm_num

theorem pose_entry_eval_pos :
    ((calculate_pose A0 1 anim0).current_transforms.getD 0 mat4id).m03 = 1 := by
  simp only [calculate_pose]
  rw [fmod_eval_pos]
  norm_num [A0, boneB, anim0, processNode, processChildren, applyBinding,
    nodeLocalTransform, find_node_animation, find_node_animation.go, sampleVec,
    sampleQuat, get_key_frames, get_frame_index, gfiAux, get_blend_factor,
    lerp_vec3, lerp_quat, qnormalize, translateM, scaleM, quatToMat4, Mat4.mul,
    mat4id, mapFind, bsDefault, Real.sqrt_one, List.getD, Bone.name]

theorem pose_entry_eval_neg :
    ((calculate_pose A0 (1 + (-1 : ℤ) * anim0.duration / anim0.ticks_per_second)
      anim0).current_transforms.getD 0 mat4id).m03 = -9 := by
  simp only [calculate_pose]
  rw [fmod_eval_neg]
  norm_num [A0, boneB, anim0, processNode, processChildren, applyBinding,
    nodeLocalTransform, find_node_animation, find_node_animation.go, sampleVec,
    sampleQuat, get_key_frames, get_frame_index, gfiAux, get_blend_factor,
    lerp_vec3, lerp_quat, qnormalize, translateM, scaleM, quatToMat4, Mat4.mul,
    mat4id, mapFind, bsDefault, Real.sqrt_one, List.getD, Bone.name]

/-- C1 counterexample: with the concrete clip anim0 (duration 10 ticks, 1
tick per second) and t = 1, taking k = -1 shifts the query to -9 seconds;
C's fmod keeps the sign of its argument, so the wrapped tick value is -9
rather than 1 and the output arrays differ. -/
theorem c1_looping_counterexample :
    (calculate_pose A0 (1 + (-1 : ℤ) * anim0.duration / anim0.ticks_per_second)
        anim0).current_transforms ≠
      (calculate_pose A0 1 anim0).current_transforms := by
  intro h
  have h0 := congrArg (fun l => (l.getD 0 mat4id).m03) h
  simp only at h0
  rw [pose_entry_eval_neg, pose_entry_eval_pos] at h0
  norm_num at h0

/-- Four-component dot product of two quaternions. -/
def qdot (a b : Quat) : ℝ := a.x * b.x + a.y * b.y + a.z * b.z + a.w * b.w

/-- Component-wise negation of a quaternion. -/
def qneg (q : Quat) : Quat := ⟨-q.x, -q.y, -q.z, -q.w⟩

/-- Component-wise blend p*(1-f) + f*n of two quaternions. -/
def qblend (p n : Quat) (f : ℝ) : Quat :=
  ⟨p.x * (1 - f) + f * n.x,
   p.y * (1 - f) + f * n.y,
   p.z * (1 - f) + f * n.z,
   p.w * (1 - f) + f * n.w⟩

/-- Squared norm of a quaternion. -/
def qnormSq (q : Quat) : ℝ := q.x * q.x + q.y * q.y + q.z * q.z + q.w * q.w

/-- The identity quaternion. -/
def qid : Quat := ⟨0, 0, 0, 1⟩

/-- A unit quaternion a quarter turn away in the x component. -/
def qx1 : Quat := ⟨1, 0, 0, 0⟩

/-- C7: the quaternion blend normalizes both endpoints, blends them
component-wise as prev*(1-f) + f*next, negating the next quaternion first
exactly when their dot product is negative, and does not renormalize: at the
concrete endpoints qid and qx1 with factor one half the result has squared
norm one half, not one. -/
theorem c7_lerp_quat (a b : Quat) (f : ℝ) :
    (0 ≤ qdot (qnormalize a) (qnormalize b) →
      lerp_quat a b f = qblend (qnormalize a) (qnormalize b) f) ∧
    (qdot (qnormalize a) (qnormalize b) < 0 →
      lerp_quat a b f = qblend (qnormalize a) (qneg (qnormalize b)) f) ∧
    qnormSq (lerp_quat qid qx1 (1 / 2)) ≠ 1 := by
  refine ⟨fun h => ?_, fun h => ?_, ?_⟩
  · simp only [qdot] at h
    simp only [lerp_quat, qblend]
    rw [if_neg (not_lt.mpr h)]
  · simp only [qdot] at h
    simp only [lerp_quat, qblend, qneg]
    rw [if_pos h]
  · have hq : lerp_quat qid qx1 (1 / 2) = ⟨1 / 2, 0, 0, 1 / 2⟩ := by
      norm_num [lerp_quat, qnormalize, qid, qx1, Real.sqrt_one]
    rw [hq]
    norm_num [qnormSq]

/-- The negation of qid, used to exercise the dot < 0 branch. -/
def qidneg : Quat := ⟨0, 0, 0, -1⟩

theorem c7_lerp_quat_witness :
    lerp_quat qid qx1 (1 / 2) = qblend (qnormalize qid) (qnormalize qx1) (1 / 2) ∧
    lerp_quat qid qidneg (1 / 2) =
      qblend (qnormalize qid) (qneg (qnormalize qidneg)) (1 / 2) :=
  ⟨(c7_lerp_quat qid qx1 (1 / 2)).1
      (by norm_num [qdot, qnormalize, qid, qx1, Real.sqrt_one]),
   (c7_lerp_quat qid qidneg (1 / 2)).2.1
      (by norm_num [qdot, qnormalize, qid, qidneg, Real.sqrt_one])⟩

theorem list_getD_eq_getElem {α : Type} (l : List α) {n : ℕ} (d : α)
    (h : n < l.length) : l.getD n d = l[n] := by
  induction l generalizing n with
  | nil => simp at h
  | cons a t ih =>
    cases n with
    | zero => simp [List.getD]
    | succ m => simpa [List.getD_cons_succ] using ih (by simpa using h)

/-- In a strictly time-sorted track the head time bounds every sample time. -/
theorem sorted_head_le {T : Type} [Inhabited T] :
    ∀ (l : List (KeyFrame T)),
      List.Pairwise (fun a b : KeyFrame T => a.time < b.time) l →
      ∀ m, m < l.length →
        (l.getD 0 default).time ≤ (l.getD m default).time := by
  intro l hl m hm
  cases l with
  | nil => simp at hm
  | cons k rest =>
    cases m with
    | zero => exact le_refl _
    | succ m' =>
      have hm' : m' < rest.length := by simpa using hm
      rw [List.getD_cons_succ]
      have hk : ∀ x ∈ rest, k.time < x.time := by
        intro x hx
        exact (List.pairwise_cons.mp hl).1 x hx
      have hmem : rest.getD m' default ∈ rest := by
        rw [list_getD_eq_getElem rest default hm']
        exact List.getElem_mem hm'
      simpa [List.getD] using (hk _ hmem).le

/-- In a strictly time-sorted track the last time bounds every sample time. -/
theorem sorted_le_last {T : Type} [Inhabited T] :
    ∀ (l : List (KeyFrame T)),
      List.Pairwise (fun a b : KeyFrame T => a.time < b.time) l →
      ∀ m, m < l.length →
        (l.getD m default).time ≤ (l.getD (l.length - 1) default).time := by
  intro l
  induction l with
  | nil => intro _ m hm; simp at hm
  | cons k rest ih =>
    intro hl m hm
    have hp := List.pairwise_cons.mp hl
    cases rest with
    | nil =>
      cases m with
      | zero => exact le_refl _
      | succ m' =>
        exfalso
        simp only [List.length_cons, List.length_nil] at hm
        omega
    | cons k2 rest2 =>
      have hlen : (k :: k2 :: rest2).length - 1 = (k2 :: rest2).length - 1 + 1 := by
        simp
      rw [hlen, List.getD_cons_succ]
      cases m with
      | zero =>
        have hmem : (k2 :: rest2).getD ((k2 :: rest2).length - 1) default ∈ k2 :: rest2 := by
          rw [list_getD_eq_getElem (k2 :: rest2) default (by simp)]
          exact List.getElem_mem _
        exact (hp.1 _ hmem).le
      | succ m' =>
        rw [List.getD_cons_succ]
        exact ih hp.2 m' (by simpa using hm)

/-- Shifting the start counter of the bracket scan shifts its result. -/
theorem gfiAux_shift {T : Type} (time : ℝ) :
    ∀ (l : List (KeyFrame T)) (i : ℕ),
      gfiAux time l i = (gfiAux time l 0).map (fun j => j + i) := by
  intro l
  induction l with
  | nil => intro i; simp [gfiAux]
  | cons k1 rest ih =>
    intro i
    cases rest with
    | nil => simp [gfiAux]
    | cons k2 rest2 =>
      rw [gfiAux, gfiAux]
      by_cases h : time < k2.time
      · simp [h]
      · rw [if_neg h, if_neg h, ih (i + 1), ih 1]
        cases gfiAux time (k2 :: rest2) 0 with
        | none => simp
        | some v =>
          simp
          omega

/-- A successful bracket scan starting at counter i stays within the list:
the found index leaves room for the following sample. -/
theorem gfiAux_some_bound {T : Type} (time : ℝ) :
    ∀ (l : List (KeyFrame T)) (i j : ℕ),
      gfiAux time l i = some j → i ≤ j ∧ j - i + 2 ≤ l.length := by
  intro l
  induction l with
  | nil => intro i j h; simp [gfiAux] at h
  | cons k1 rest ih =>
    intro i j h
    cases rest with
    | nil => simp [gfiAux] at h
    | cons k2 rest2 =>
      rw [gfiAux] at h
      by_cases hc : time < k2.time
      · rw [if_pos hc] at h
        injection h with h
        subst h
        simp
      · rw [if_neg hc] at h
        have := ih (i + 1) j h
        constructor
        · omega
        · have hlen : (k2 :: rest2).length + 1 = (k1 :: k2 :: rest2).length := by simp
          omega

/-- A fallen-through bracket scan means index zero and the next index stays
in any track with at least two samples. -/
theorem get_frame_index_succ_lt {T : Type} (time : ℝ) (keys : List (KeyFrame T))
    (h2 : 2 ≤ keys.length) : get_frame_index time keys + 1 < keys.length := by
  unfold get_frame_index
  cases h : gfiAux time keys 0 with
  | none => simpa using h2
  | some j =>
    have hb := gfiAux_some_bound time keys 0 j h
    simp only [Option.getD_some]
    omega

/-- The bracket scan falls through when every sample time is at most the
query time. -/
theorem gfiAux_none_of_all_le {T : Type} (time : ℝ) :
    ∀ (l : List (KeyFrame T)) (i : ℕ),
      (∀ x ∈ l, x.time ≤ time) → gfiAux time l i = none := by
  intro l
  induction l with
  | nil => intro i _; rfl
  | cons k1 rest ih =>
    intro i hall
    cases rest with
    | nil => rfl
    | cons k2 rest2 =>
      rw [gfiAux, if_neg (not_lt.mpr (hall k2 (by simp)))]
      exact ih (i + 1) (fun x hx => hall x (by simp [hx]))

/-- Characterization of a successful bracket scan on a strictly sorted track
whose last sample lies beyond the query: the scan finds the first index whose
next sample time exceeds the query, which is also the last index whose own
time is at most the query when the query is not before the first sample. -/
theorem gfiAux_bracket {T : Type} [Inhabited T] (time : ℝ) :
    ∀ (keys : List (KeyFrame T)),
      List.Pairwise (fun a b : KeyFrame T => a.time < b.time) keys →
      2 ≤ keys.length →
      time < (keys.getD (keys.length - 1) default).time →
      ∃ j, gfiAux time keys 0 = some j ∧ j + 1 < keys.length ∧
        time < (keys.getD (j + 1) default).time ∧
        ((keys.getD 0 default).time ≤ time → (keys.getD j default).time ≤ time) ∧
        (∀ m, m < keys.length → (keys.getD m default).time ≤ time → m ≤ j) := by
  intro keys
  induction keys with
  | nil => intro _ h2; simp at h2
  | cons k1 rest ih =>
    intro hs h2 hhi
    have hp := List.pairwise_cons.mp hs
    cases rest with
    | nil => simp at h2
    | cons k2 rest2 =>
      by_cases hc : time < k2.time
      · refine ⟨0, ?_, by simp, by simpa [List.getD] using hc, fun h0 => h0, ?_⟩
        · rw [gfiAux, if_pos hc]
        · intro m hm hmt
          by_contra hgt
          push_neg at hgt
          have hm1 : m - 1 < (k2 :: rest2).length := by
            simp only [List.length_cons] at hm ⊢
            omega
          have hh := sorted_head_le (k2 :: rest2) hp.2 (m - 1) (by omega)
          have hgetD : ((k1 :: k2 :: rest2).getD m default) =
              ((k2 :: rest2).getD (m - 1) default) := by
            cases m with
            | zero => omega
            | succ m' => simp [List.getD_cons_succ]
          rw [hgetD] at hmt
          have : k2.time ≤ time := le_trans (by simpa [List.getD] using hh) hmt
          exact absurd hc (not_lt.mpr this)
      · have hlast : ((k1 :: k2 :: rest2).getD ((k1 :: k2 :: rest2).length - 1) default) =
            ((k2 :: rest2).getD ((k2 :: rest2).length - 1) default) := by
          simp [List.getD_cons_succ]
        rw [hlast] at hhi
        cases rest2 with
        | nil =>
          exfalso
          have : time < k2.time := by simpa [List.getD] using hhi
          exact hc this
        | cons k3 rest3 =>
          obtain ⟨j, hj, hjlen, hjnext, hjcur, hjmax⟩ :=
            ih hp.2 (by simp) hhi
          refine ⟨j + 1, ?_, by simpa using hjlen, ?_, ?_, ?_⟩
          · rw [gfiAux, if_neg hc, gfiAux_shift time _ 1, hj]
            rfl
          · simpa [List.getD_cons_succ] using hjnext
          · intro _
            rw [List.getD_cons_succ]
            exact hjcur (by simpa [List.getD] using not_lt.mp hc)
          · intro m hm hmt
            cases m with
            | zero => omega
            | succ m' =>
              rw [List.getD_cons_succ] at hmt
              have := hjmax m' (by simpa using hm) hmt
              omega

/-- C3 (amended): on a strictly sorted track with at least two samples and a
query inside the sampled range, the bracket lookup returns the last index
whose time is at most the query together with the following index; a query
before the first sample yields the pair of indices 0 and 1 (not 0 and 0), a
query at or past the final sample also falls through to index 0, and a track
with exactly one sample sends the pair lookup out of bounds. -/
theorem c3_bracket {T : Type} [Inhabited T] (keys : List (KeyFrame T)) (time : ℝ)
    (hs : List.Pairwise (fun a b : KeyFrame T => a.time < b.time) keys)
    (h2 : 2 ≤ keys.length)
    (hlo : (keys.getD 0 default).time ≤ time)
    (hhi : time < (keys.getD (keys.length - 1) default).time) :
    ((keys.getD (get_frame_index time keys) default).time ≤ time ∧
     get_frame_index time keys + 1 < keys.length ∧
     time < (keys.getD (get_frame_index time keys + 1) default).time ∧
     (∀ m, m < keys.length → (keys.getD m default).time ≤ time →
        m ≤ get_frame_index time keys) ∧
     get_key_frames time keys =
       ⟨keys.getD (get_frame_index time keys) default,
        keys.getD (get_frame_index time keys + 1) default⟩) ∧
    (∀ t2, t2 < (keys.getD 0 default).time →
       get_frame_index t2 keys = 0 ∧
       get_key_frames t2 keys = ⟨keys.getD 0 default, keys.getD 1 default⟩) ∧
    (∀ t2, (keys.getD (keys.length - 1) default).time ≤ t2 →
       get_frame_index t2 keys = 0) ∧
    (∀ (k : KeyFrame T) (t2 : ℝ), get_key_framesChecked t2 [k] = none) := by
  obtain ⟨j, hj, hjlen, hjnext, hjcur, hjmax⟩ := gfiAux_bracket time keys hs h2 hhi
  have hgfi : get_frame_index time keys = j := by
    unfold get_frame_index
    rw [hj]
    rfl
  refine ⟨⟨?_, ?_, ?_, ?_, rfl⟩, ?_, ?_, fun k t2 => rfl⟩
  · rw [hgfi]
    exact hjcur hlo
  · rw [hgfi]
    exact hjlen
  · rw [hgfi]
    exact hjnext
  · intro m hm hmt
    rw [hgfi]
    exact hjmax m hm hmt
  · intro t2 ht2
    have hz : get_frame_index t2 keys = 0 := by
      cases keys with
      | nil => simp at h2
      | cons k1 rest =>
        cases rest with
        | nil => simp at h2
        | cons k2 rest2 =>
          have h01 : k1.time < k2.time := (List.pairwise_cons.mp hs).1 k2 (by simp)
          have ht2' : t2 < k2.time :=
            lt_trans (by simpa [List.getD] using ht2) h01
          unfold get_frame_index
          rw [gfiAux, if_pos ht2']
          rfl
    exact ⟨hz, by simp only [get_key_frames, hz]⟩
  · intro t2 ht2
    have hnone : gfiAux t2 keys 0 = none := by
      apply gfiAux_none_of_all_le
      intro x hx
      obtain ⟨n, hn, hxn⟩ := List.getElem_of_mem hx
      calc x.time = (keys.getD n default).time := by
            rw [list_getD_eq_getElem keys default hn, hxn]
        _ ≤ (keys.getD (keys.length - 1) default).time := sorted_le_last keys hs n hn
        _ ≤ t2 := ht2
    unfold get_frame_index
    rw [hnone]
    rfl

/-- Concrete two-sample track for the bracket witnesses and counterexamples. -/
def keys30 : List (KeyFrame Vec3) := [⟨0, ⟨0, 0, 0⟩⟩, ⟨10, ⟨10, 0, 0⟩⟩]

/-- C3 counterexample: at query time -1, before the first sample of the
two-sample track keys30, the returned pair is samples 0 and 1, so the next
sample is the one at time 10 and not sample 0 as the claim states. -/
theorem c3_bracket_counterexample :
    (get_key_frames (-1 : ℝ) keys30).next_key_frame.time ≠
      (keys30.getD 0 default).time := by
  norm_num [get_key_frames, get_frame_index, gfiAux, keys30, List.getD]

theorem c3_bracket_witness :
    List.Pairwise (fun a b : KeyFrame Vec3 => a.time < b.time) keys30 ∧
    2 ≤ keys30.length ∧
    (keys30.getD 0 default).time ≤ (5 : ℝ) ∧
    (5 : ℝ) < (keys30.getD (keys30.length - 1) default).time ∧
    get_frame_index (5 : ℝ) keys30 + 1 < keys30.length := by
  have hs : List.Pairwise (fun a b : KeyFrame Vec3 => a.time < b.time) keys30 := by
    unfold keys30
    refine List.Pairwise.cons ?_ (List.Pairwise.cons ?_ List.Pairwise.nil)
    · intro x hx
      rw [List.mem_singleton] at hx
      subst hx
      norm_num
    · intro x hx
      simp at hx
  have h2 : 2 ≤ keys30.length := by simp [keys30]
  have hlo : (keys30.getD 0 default).time ≤ (5 : ℝ) := by norm_num [keys30, List.getD]
  have hhi : (5 : ℝ) < (keys30.getD (keys30.length - 1) default).time := by
    norm_num [keys30, List.getD]
  exact ⟨hs, h2, hlo, hhi, (c3_bracket keys30 5 hs h2 hlo hhi).1.2.1⟩

/-- C4 (amended): on any track with at least two keyframes the pair lookup
of pose evaluation never reads out of bounds (the checked and the total
semantics agree); a query at or beyond the final sample wraps to the pair of
indices 0 and 1 instead of clamping to the final sample; a track with
exactly one keyframe reads out of bounds. -/
theorem c4_pair_lookup_bounds {T : Type} [Inhabited T] :
    (∀ (time : ℝ) (keys : List (KeyFrame T)), 2 ≤ keys.length →
       get_key_framesChecked time keys = some (get_key_frames time keys)) ∧
    (∀ (time : ℝ) (keys : List (KeyFrame T)),
       List.Pairwise (fun a b : KeyFrame T => a.time < b.time) keys →
       2 ≤ keys.length →
       (keys.getD (keys.length - 1) default).time ≤ time →
       get_key_frames time keys = ⟨keys.getD 0 default, keys.getD 1 default⟩) ∧
    (∀ (k : KeyFrame T) (time : ℝ), get_key_framesChecked time [k] = none) := by
  refine ⟨?_, ?_, fun k time => rfl⟩
  · intro time keys h2
    have hb := get_frame_index_succ_lt time keys h2
    have hb0 : get_frame_index time keys < keys.length := by omega
    simp only [get_key_framesChecked, get_key_frames]
    rw [List.getElem?_eq_getElem hb0, List.getElem?_eq_getElem hb]
    rw [list_getD_eq_getElem keys default hb0, list_getD_eq_getElem keys default hb]
  · intro time keys hs h2 hge
    have hnone : gfiAux time keys 0 = none := by
      apply gfiAux_none_of_all_le
      intro x hx
      obtain ⟨n, hn, hxn⟩ := List.getElem_of_mem hx
      calc x.time = (keys.getD n default).time := by
            rw [list_getD_eq_getElem keys default hn, hxn]
        _ ≤ (keys.getD (keys.length - 1) default).time := sorted_le_last keys hs n hn
        _ ≤ time := hge
    have hgfi : get_frame_index time keys = 0 := by
      unfold get_frame_index
      rw [hnone]
      rfl
    simp only [get_key_frames, hgfi]

/-- C4 counterexample: on a track with exactly one keyframe the pair lookup
reads past the end of the array (none in the checked semantics), so the
claim that the lookup never indexes out of bounds fails. -/
theorem c4_pair_lookup_counterexample :
    get_key_framesChecked (0 : ℝ) [(⟨0, ⟨0, 0, 0⟩⟩ : KeyFrame Vec3)] = none := rfl

theorem c4_pair_lookup_witness :
    get_key_framesChecked (5 : ℝ) keys30 = some (get_key_frames 5 keys30) ∧
    get_key_frames (20 : ℝ) keys30 = ⟨keys30.getD 0 default, keys30.getD 1 default⟩ := by
  have hs : List.Pairwise (fun a b : KeyFrame Vec3 => a.time < b.time) keys30 := by
    unfold keys30
    refine List.Pairwise.cons ?_ (List.Pairwise.cons ?_ List.Pairwise.nil)
    · intro x hx
      rw [List.mem_singleton] at hx
      subst hx
      norm_num
    · intro x hx
      simp at hx
  exact ⟨c4_pair_lookup_bounds.1 5 keys30 (by simp [keys30]),
    c4_pair_lookup_bounds.2.1 20 keys30 hs (by simp [keys30])
      (by norm_num [keys30, List.getD])⟩

mutual

theorem visitsNode_name_mem (t : ℝ) (anim : Animation) (node : Bone) (p : Mat4) :
    ∀ pr ∈ visitsNode t anim node p, pr.1.name ∈ treeNames node := by
  cases node with
  | mk n m cs =>
    intro pr hpr
    rw [visitsNode] at hpr
    rw [treeNames]
    rcases List.mem_cons.mp hpr with h | h
    · subst h
      simp [Bone.name]
    · exact List.mem_cons_of_mem _ (visitsList_name_mem t anim cs _ pr h)
termination_by sizeOf node

theorem visitsList_name_mem (t : ℝ) (anim : Animation) (cs : List Bone) (p : Mat4) :
    ∀ pr ∈ visitsList t anim cs p, pr.1.name ∈ treeNamesList cs := by
  cases cs with
  | nil =>
    intro pr hpr
    rw [visitsList] at hpr
    simp at hpr
  | cons c rest =>
    intro pr hpr
    rw [visitsList] at hpr
    rw [treeNamesList]
    rcases List.mem_append.mp hpr with h | h
    · exact List.mem_append_left _ (visitsNode_name_mem t anim c p pr h)
    · exact List.mem_append_right _ (visitsList_name_mem t anim rest p pr h)
termination_by sizeOf cs

end

mutual

theorem entryNode (A : Avatar) (t : ℝ) (node : Bone) (p : Mat4) (anim : Animation)
    (hnd : (writtenIdx A.bones_map (treeNames node)).Nodup) :
    ∀ pr ∈ visitsNode t anim node p, ∀ i,
      mapFind A.bones_map pr.1.name = some i → i < A.bone_transforms.length →
      ((processNode A t node p anim).bone_transforms.getD i bsDefault).final_world_matrix =
        Mat4.mul
          (Mat4.mul A.global_inverse_transform
            (Mat4.mul pr.2 (nodeLocalTransform t anim pr.1)))
          ((A.bone_transforms.getD i bsDefault).offset_matrix) := by
  cases node with
  | mk n m cs =>
    intro pr hpr i hmap hlen
    rw [visitsNode] at hpr
    rw [processNode]
    set g := Mat4.mul p (nodeLocalTransform t anim (Bone.mk n m cs)) with hgdef
    set B := applyBinding A n g with hBdef
    have hBpres := applyBinding_preserves A n g
    have hBmap : B.bones_map = A.bones_map := hBpres.2.1
    have hBgi : B.global_inverse_transform = A.global_inverse_transform := hBpres.1
    have hBlen : B.bone_transforms.length = A.bone_transforms.length := hBpres.len
    rcases List.mem_cons.mp hpr with hh | hh
    · subst hh
      simp only [Bone.name] at hmap
      have hwr : writtenIdx A.bones_map (treeNames (Bone.mk n m cs)) =
          i :: writtenIdx A.bones_map (treeNamesList cs) := by
        rw [treeNames, writtenIdx_cons, hmap]
      rw [hwr] at hnd
      have hni : i ∉ writtenIdx A.bones_map (treeNamesList cs) :=
        (List.nodup_cons.mp hnd).1
      have hCE : (processChildren B t cs g anim).bone_transforms.getD i bsDefault =
          B.bone_transforms.getD i bsDefault := by
        apply (processChildren_frame B t cs g anim).2
        rw [hBmap]
        exact hni
      rw [hCE, hBdef, applyBinding_getD_written A n g bsDefault hmap hlen]
    · have hndtail : (writtenIdx A.bones_map (treeNamesList cs)).Nodup := by
        rw [treeNames, writtenIdx_cons] at hnd
        cases hm0 : mapFind A.bones_map n with
        | none => rw [hm0] at hnd; exact hnd
        | some j => rw [hm0] at hnd; exact (List.nodup_cons.mp hnd).2
      have hndB : (writtenIdx B.bones_map (treeNamesList cs)).Nodup := by
        rw [hBmap]
        exact hndtail
      have h1 : mapFind B.bones_map pr.1.name = some i := by
        rw [hBmap]
        exact hmap
      have h2 : i < B.bone_transforms.length := by
        rw [hBlen]
        exact hlen
      have hform := entryList B t cs g anim hndB pr hh i h1 h2
      rw [hBgi, hBpres.offsetD i] at hform
      exact hform
termination_by sizeOf node

theorem entryList (A : Avatar) (t : ℝ) (cs : List Bone) (p : Mat4) (anim : Animation)
    (hnd : (writtenIdx A.bones_map (treeNamesList cs)).Nodup) :
    ∀ pr ∈ visitsList t anim cs p, ∀ i,
      mapFind A.bones_map pr.1.name = some i → i < A.bone_transforms.length →
      ((processChildren A t cs p anim).bone_transforms.getD i bsDefault).final_world_matrix =
        Mat4.mul
          (Mat4.mul A.global_inverse_transform
            (Mat4.mul pr.2 (nodeLocalTransform t anim pr.1)))
          ((A.bone_transforms.getD i bsDefault).offset_matrix) := by
  cases cs with
  | nil =>
    intro pr hpr
    rw [visitsList] at hpr
    simp at hpr
  | cons c rest =>
    intro pr hpr i hmap hlen
    rw [visitsList] at hpr
    rw [processChildren]
    set N := processNode A t c p anim with hNdef
    have hNpres := (processNode_frame A t c p anim).1
    have hNmap : N.bones_map = A.bones_map := hNpres.2.1
    have hNgi : N.global_inverse_transform = A.global_inverse_transform := hNpres.1
    have hNlen : N.bone_transforms.length = A.bone_transforms.length := hNpres.len
    have hndsplit := List.nodup_append.mp
      (by rw [treeNamesList, writtenIdx_append] at hnd; exact hnd)
    rcases List.mem_append.mp hpr with hh | hh
    · have hform := entryNode A t c p anim hndsplit.1 pr hh i hmap hlen
      have hiwc : i ∈ writtenIdx A.bones_map (treeNames c) :=
        List.mem_filterMap.mpr ⟨pr.1.name, visitsNode_name_mem t anim c p pr hh, hmap⟩
      have hinr : i ∉ writtenIdx A.bones_map (treeNamesList rest) := fun hc =>
        hndsplit.2.2 hiwc hc
      have hrest : (processChildren N t rest p anim).bone_transforms.getD i bsDefault =
          N.bone_transforms.getD i bsDefault := by
        apply (processChildren_frame N t rest p anim).2
        rw [hNmap]
        exact hinr
      rw [hrest, hNdef]
      exact hform
    · have hndN : (writtenIdx N.bones_map (treeNamesList rest)).Nodup := by
        rw [hNmap]
        exact hndsplit.2.1
      have h1 : mapFind N.bones_map pr.1.name = some i := by
        rw [hNmap]
        exact hmap
      have h2 : i < N.bone_transforms.length := by
        rw [hNlen]
        exact hlen
      have hform := entryList N t rest p anim hndN pr hh i h1 h2
      rw [hNgi, hNpres.offsetD i] at hform
      exact hform
termination_by sizeOf cs

end

/-- C2: under the data-model invariants that bone names are unique in the
tree and the binding map is injective, every bone visited by calculate_pose
whose name is in the binding table gets
global_inverse_transform * (parentGlobal * local) * offset written at its
binding index, where the visit order is the depth-first walk from the root
under the identity parent transform at the wrapped query time; the local
transform of a bone with a channel is translation * rotation * scale of the
independently sampled tracks; and the stored global inverse transform of a
constructed Avatar is a left inverse of the scene root's bind transform
whenever that transform is invertible. -/
theorem c2_skinning_matrix (A : Avatar) (t : ℝ) (anim : Animation)
    (hnames : (treeNames A.root_node).Nodup)
    (hinj : ∀ n1 n2 i, mapFind A.bones_map n1 = some i →
      mapFind A.bones_map n2 = some i → n1 = n2) :
    (∀ pr ∈ visitsNode (fmodR (t * anim.ticks_per_second) anim.duration) anim
        A.root_node mat4id, ∀ i,
      mapFind A.bones_map pr.1.name = some i → i < A.bone_transforms.length →
      ((calculate_pose A t anim).bone_transforms.getD i bsDefault).final_world_matrix =
        Mat4.mul
          (Mat4.mul A.global_inverse_transform
            (Mat4.mul pr.2 (nodeLocalTransform
              (fmodR (t * anim.ticks_per_second) anim.duration) anim pr.1)))
          ((A.bone_transforms.getD i bsDefault).offset_matrix)) ∧
    (∀ (b : Bone) (ch : BoneAnimation) (u : ℝ),
      find_node_animation anim b.name = some ch →
      nodeLocalTransform u anim b =
        Mat4.mul
          (Mat4.mul (translateM (sampleVec u ch.position_keys))
            (quatToMat4 (sampleQuat u ch.rotation_keys)))
          (scaleM (sampleVec u ch.scale_keys))) ∧
    (∀ (scene : AiScene) (mesh : AiMesh), det4 scene.rootNode.transformation ≠ 0 →
      Mat4.mul (mkAvatar scene mesh).global_inverse_transform
        scene.rootNode.transformation = mat4id) := by
  refine ⟨?_, ?_, ?_⟩
  · have hnd : (writtenIdx A.bones_map (treeNames A.root_node)).Nodup := by
      apply List.Nodup.filterMap ?_ hnames
      intro a a' b hb hb'
      exact hinj a a' b hb hb'
    intro pr hpr i hmap hlen
    have h := entryNode A (fmodR (t * anim.ticks_per_second) anim.duration)
      A.root_node mat4id anim hnd pr hpr i hmap hlen
    simpa only [calculate_pose] using h
  · intro b ch u h
    unfold nodeLocalTransform
    rw [h]
  · intro scene mesh hdet
    have hgi : (mkAvatar scene mesh).global_inverse_transform =
        inverse4 scene.rootNode.transformation := rfl
    rw [hgi]
    exact inverse4_mul_self hdet

/-- Concrete scene with an identity root transform for the C2 witness. -/
def scene1 : AiScene := ⟨SceneNode.mk "R" mat4id [], [], []⟩

/-- Concrete mesh with no bones for the C2 witness. -/
def mesh1 : AiMesh := ⟨[]⟩

theorem c2_skinning_matrix_witness :
    ((calculate_pose A0 5 anim0).bone_transforms.getD 0 bsDefault).final_world_matrix =
      Mat4.mul
        (Mat4.mul A0.global_inverse_transform
          (Mat4.mul mat4id (nodeLocalTransform
            (fmodR (5 * anim0.ticks_per_second) anim0.duration) anim0 boneB)))
        ((A0.bone_transforms.getD 0 bsDefault).offset_matrix) ∧
    Mat4.mul (mkAvatar scene1 mesh1).global_inverse_transform
      scene1.rootNode.transformation = mat4id := by
  have hnames : (treeNames A0.root_node).Nodup := by
    simp [A0, boneB, treeNames, treeNamesList]
  have hinj : ∀ n1 n2 i, mapFind A0.bones_map n1 = some i →
      mapFind A0.bones_map n2 = some i → n1 = n2 := by
    intro n1 n2 i h1 h2
    simp only [A0, mapFind] at h1 h2
    split at h1
    · split at h2
      · rename_i hA hB
        rw [hA, hB]
      · exact absurd h2 (by simp)
    · exact absurd h1 (by simp)
  have h := c2_skinning_matrix A0 5 anim0 hnames hinj
  refine ⟨h.1 (boneB, mat4id) ?_ 0 ?_ ?_, h.2.2 scene1 mesh1 ?_⟩
  · simp [A0, boneB, visitsNode, visitsList]
  · simp [A0, boneB, mapFind, Bone.name]
  · simp [A0]
  · norm_num [scene1, SceneNode.transformation, det4, cof00, cof01, cof02, cof03,
      det3, mat4id]

/-- Keep the first record of each name, dropping later records with a name
already seen (the order of first occurrences is preserved). -/
def dedupByName : List AiBone → List AiBone
  | [] => []
  | b :: rest => b :: dedupByName (rest.filter (fun c => c.name != b.name))
termination_by l => l.length
decreasing_by
  simp only [List.length_cons]
  exact Nat.lt_succ_of_le (List.length_filter_le _ _)

/-- Keep the first occurrence of each string, in first-seen order. -/
def dedupFirst : List String → List String
  | [] => []
  | n :: rest => n :: dedupFirst (rest.filter (fun m => m != n))
termination_by l => l.length
decreasing_by
  simp only [List.length_cons]
  exact Nat.lt_succ_of_le (List.length_filter_le _ _)

/-- Association list sending the k-th name to index i + k. -/
def enumMap : ℕ → List String → List (String × ℕ)
  | _, [] => []
  | i, n :: rest => (n, i) :: enumMap (i + 1) rest

theorem mapFind_append (m1 m2 : List (String × ℕ)) (n : String) :
    mapFind (m1 ++ m2) n =
      match mapFind m1 n with
      | some v => some v
      | none => mapFind m2 n := by
  induction m1 with
  | nil => simp [mapFind]
  | cons kv rest ih =>
    obtain ⟨k, v⟩ := kv
    simp only [List.cons_append, mapFind]
    by_cases h : n = k
    · simp [h]
    · simp [h, ih]

theorem mem_dedupByName : ∀ (k : ℕ) (l : List AiBone), l.length ≤ k →
    ∀ x ∈ dedupByName l, x ∈ l := by
  intro k
  induction k with
  | zero =>
    intro l hl x hx
    rw [List.length_eq_zero.mp (Nat.le_zero.mp hl)] at hx ⊢
    rw [dedupByName] at hx
    exact hx
  | succ k ih =>
    intro l hl x hx
    cases l with
    | nil =>
      rw [dedupByName] at hx
      exact hx
    | cons b rest =>
      rw [dedupByName] at hx
      rcases List.mem_cons.mp hx with rfl | h
      · exact List.mem_cons_self _ _
      · have hlen : (rest.filter (fun c => c.name != b.name)).length ≤ k := by
          have := List.length_filter_le (fun c => c.name != b.name) rest
          simp only [List.length_cons] at hl
          omega
        have := ih _ hlen x h
        exact List.mem_cons_of_mem b (List.mem_of_mem_filter this)

theorem dedupByName_names_nodup : ∀ (k : ℕ) (l : List AiBone), l.length ≤ k →
    ((dedupByName l).map AiBone.name).Nodup := by
  intro k
  induction k with
  | zero =>
    intro l hl
    rw [List.length_eq_zero.mp (Nat.le_zero.mp hl), dedupByName]
    simp
  | succ k ih =>
    intro l hl
    cases l with
    | nil =>
      rw [dedupByName]
      simp
    | cons b rest =>
      rw [dedupByName]
      rw [List.map_cons, List.nodup_cons]
      have hlen : (rest.filter (fun c => c.name != b.name)).length ≤ k := by
        have := List.length_filter_le (fun c => c.name != b.name) rest
        simp only [List.length_cons] at hl
        omega
      refine ⟨?_, ih _ hlen⟩
      intro hmem
      obtain ⟨c, hc, hcn⟩ := List.mem_map.mp hmem
      have hcf := mem_dedupByName k _ hlen c hc
      have := List.of_mem_filter hcf
      rw [hcn] at this
      simp at this

theorem dedupByName_map_name : ∀ (k : ℕ) (l : List AiBone), l.length ≤ k →
    (dedupByName l).map AiBone.name = dedupFirst (l.map AiBone.name) := by
  intro k
  induction k with
  | zero =>
    intro l hl
    rw [List.length_eq_zero.mp (Nat.le_zero.mp hl)]
    simp [dedupByName, dedupFirst]
  | succ k ih =>
    intro l hl
    cases l with
    | nil => simp [dedupByName, dedupFirst]
    | cons b rest =>
      rw [dedupByName, List.map_cons, List.map_cons, dedupFirst]
      have hlen : (rest.filter (fun c => c.name != b.name)).length ≤ k := by
        have := List.length_filter_le (fun c => c.name != b.name) rest
        simp only [List.length_cons] at hl
        omega
      rw [ih _ hlen]
      have hcomm : (rest.map AiBone.name).filter (fun m => m != b.name) =
          (rest.filter (fun c => c.name != b.name)).map AiBone.name := by
        rw [List.filter_map]
        rfl
      rw [hcomm]

theorem mapFind_enumMap_nodup :
    ∀ (names : List String) (i j : ℕ), names.Nodup → j < names.length →
      mapFind (enumMap i names) (names.getD j "") = some (i + j) := by
  intro names
  induction names with
  | nil =>
    intro i j _ hj
    simp at hj
  | cons n rest ih =>
    intro i j hnd hj
    cases j with
    | zero =>
      simp [enumMap, mapFind, List.getD]
    | succ j' =>
      have hj' : j' < rest.length := by simpa using hj
      rw [List.getD_cons_succ, enumMap, mapFind]
      have hne : rest.getD j' "" ≠ n := by
        intro he
        have hmem : rest.getD j' "" ∈ rest := by
          rw [list_getD_eq_getElem rest "" hj']
          exact List.getElem_mem hj'
        rw [he] at hmem
        exact (List.nodup_cons.mp hnd).1 hmem
      rw [if_neg hne, ih (i + 1) j' (List.nodup_cons.mp hnd).2 hj']
      congr 1
      omega

theorem mapFind_enumMap_not_mem :
    ∀ (names : List String) (i : ℕ) (n : String), n ∉ names →
      mapFind (enumMap i names) n = none := by
  intro names
  induction names with
  | nil => intro i n _; rfl
  | cons m rest ih =>
    intro i n hn
    rw [enumMap, mapFind,
      if_neg (fun h => hn (by rw [h]; exact List.mem_cons_self m rest))]
    exact ih (i + 1) n (fun h => hn (List.mem_cons_of_mem m h))

theorem foldl_addMeshBone_char :
    ∀ (bones : List AiBone) (st : Avatar),
      (bones.foldl addMeshBone st).bone_transforms =
        st.bone_transforms ++
          (dedupByName (bones.filter (fun b => (mapFind st.bones_map b.name).isNone))).map
            (fun b => ⟨b.offset_matrix, mat4id⟩) ∧
      (bones.foldl addMeshBone st).bones_map =
        st.bones_map ++
          enumMap st.amount_of_bones
            ((dedupByName (bones.filter
              (fun b => (mapFind st.bones_map b.name).isNone))).map AiBone.name) ∧
      (bones.foldl addMeshBone st).amount_of_bones =
        st.amount_of_bones +
          (dedupByName (bones.filter
            (fun b => (mapFind st.bones_map b.name).isNone))).length ∧
      (bones.foldl addMeshBone st).global_inverse_transform =
        st.global_inverse_transform ∧
      (bones.foldl addMeshBone st).root_node = st.root_node ∧
      (bones.foldl addMeshBone st).current_transforms = st.current_transforms := by
  intro bones
  induction bones with
  | nil =>
    intro st
    simp [dedupByName, enumMap]
  | cons b rest ih =>
    intro st
    rw [List.foldl_cons]
    cases hm : mapFind st.bones_map b.name with
    | some j =>
      have hab : addMeshBone st b = st := by
        unfold addMeshBone
        rw [hm]
      have hfil : (b :: rest).filter (fun c => (mapFind st.bones_map c.name).isNone) =
          rest.filter (fun c => (mapFind st.bones_map c.name).isNone) := by
        rw [List.filter_cons]
        simp [hm]
      rw [hab, hfil]
      exact ih st
    | none =>
      have hfil : (b :: rest).filter (fun c => (mapFind st.bones_map c.name).isNone) =
          b :: rest.filter (fun c => (mapFind st.bones_map c.name).isNone) := by
        rw [List.filter_cons]
        simp [hm]
      have hmap' : (addMeshBone st b).bones_map =
          st.bones_map ++ [(b.name, st.amount_of_bones)] := by
        unfold addMeshBone
        rw [hm]
      have hbt' : (addMeshBone st b).bone_transforms =
          st.bone_transforms ++ [⟨b.offset_matrix, mat4id⟩] := by
        unfold addMeshBone
        rw [hm]
      have ham' : (addMeshBone st b).amount_of_bones = st.amount_of_bones + 1 := by
        unfold addMeshBone
        rw [hm]
      have hgi' : (addMeshBone st b).global_inverse_transform =
          st.global_inverse_transform := by
        unfold addMeshBone
        rw [hm]
      have hroot' : (addMeshBone st b).root_node = st.root_node := by
        unfold addMeshBone
        rw [hm]
      have hcur' : (addMeshBone st b).current_transforms = st.current_transforms := by
        unfold addMeshBone
        rw [hm]
      have hfil2 : rest.filter
          (fun c => (mapFind (addMeshBone st b).bones_map c.name).isNone) =
          (rest.filter (fun c => (mapFind st.bones_map c.name).isNone)).filter
            (fun c => c.name != b.name) := by
        rw [List.filter_filter]
        apply List.filter_congr
        intro c _
        rw [hmap', mapFind_append]
        cases hmc : mapFind st.bones_map c.name with
        | some v => simp
        | none =>
          simp only [mapFind]
          by_cases hce : c.name = b.name
          · simp [hce]
          · simp [hce, bne_iff_ne]
      have ihst := ih (addMeshBone st b)
      rw [hfil2, hmap', hbt', ham', hgi', hroot', hcur'] at ihst
      have hdp : dedupByName ((b :: rest).filter
          (fun c => (mapFind st.bones_map c.name).isNone)) =
          b :: dedupByName ((rest.filter
            (fun c => (mapFind st.bones_map c.name).isNone)).filter
              (fun c => c.name != b.name)) := by
        rw [hfil, dedupByName]
      rw [hdp]
      refine ⟨?_, ?_, ?_, ?_, ?_, ?_⟩
      · rw [ihst.1, List.append_assoc, List.map_cons, List.singleton_append]
      · rw [ihst.2.1, List.append_assoc, List.map_cons, enumMap, List.singleton_append]
      · rw [ihst.2.2.1, List.length_cons]
        omega
      · exact ihst.2.2.2.1
      · exact ihst.2.2.2.2.1
      · exact ihst.2.2.2.2.2

theorem mem_dedupByName_all (l : List AiBone) : ∀ x ∈ dedupByName l, x ∈ l :=
  mem_dedupByName l.length l (le_refl _)

theorem dedupByName_names_nodup_all (l : List AiBone) :
    ((dedupByName l).map AiBone.name).Nodup :=
  dedupByName_names_nodup l.length l (le_refl _)

theorem dedupByName_map_name_all (l : List AiBone) :
    (dedupByName l).map AiBone.name = dedupFirst (l.map AiBone.name) :=
  dedupByName_map_name l.length l (le_refl _)

/-- C9: the binding table built by the Avatar constructor has one entry per
first-seen unique bone name of the mesh's skin list, in first-seen order,
each entry retaining the offset matrix of the name's first occurrence; the
name-to-index map sends the j-th first-seen name to index j and any name not
in the skin list to nothing. -/
theorem c9_binding_table (scene : AiScene) (mesh : AiMesh) :
    (mkAvatar scene mesh).bone_transforms.map BoneSpace.offset_matrix =
      (dedupByName mesh.bones).map AiBone.offset_matrix ∧
    (mkAvatar scene mesh).amount_of_bones = (dedupByName mesh.bones).length ∧
    (dedupByName mesh.bones).map AiBone.name =
      dedupFirst (mesh.bones.map AiBone.name) ∧
    (∀ j, j < (dedupByName mesh.bones).length →
      mapFind (mkAvatar scene mesh).bones_map
        (((dedupByName mesh.bones).getD j ⟨"", mat4id⟩).name) = some j) ∧
    (∀ n, n ∉ mesh.bones.map AiBone.name →
      mapFind (mkAvatar scene mesh).bones_map n = none) := by
  have hchar := foldl_addMeshBone_char mesh.bones avatarInit
  have hfil : mesh.bones.filter
      (fun c => (mapFind avatarInit.bones_map c.name).isNone) = mesh.bones := by
    apply List.filter_eq_self.mpr
    intro a _
    simp [avatarInit, mapFind]
  rw [hfil] at hchar
  have hbt : (mkAvatar scene mesh).bone_transforms =
      (mesh.bones.foldl addMeshBone avatarInit).bone_transforms := rfl
  have hmapA : (mkAvatar scene mesh).bones_map =
      (mesh.bones.foldl addMeshBone avatarInit).bones_map := rfl
  have hamA : (mkAvatar scene mesh).amount_of_bones =
      (mesh.bones.foldl addMeshBone avatarInit).amount_of_bones := rfl
  have hinit_bt : avatarInit.bone_transforms = [] := rfl
  have hinit_map : avatarInit.bones_map = [] := rfl
  have hinit_am : avatarInit.amount_of_bones = 0 := rfl
  refine ⟨?_, ?_, dedupByName_map_name_all mesh.bones, ?_, ?_⟩
  · rw [hbt, hchar.1, hinit_bt, List.nil_append, List.map_map]
    rfl
  · rw [hamA, hchar.2.2.1, hinit_am, Nat.zero_add]
  · intro j hj
    rw [hmapA, hchar.2.1, hinit_map, hinit_am, List.nil_append]
    have hjn : j < ((dedupByName mesh.bones).map AiBone.name).length := by
      rw [List.length_map]
      exact hj
    have hgd : ((dedupByName mesh.bones).map AiBone.name).getD j "" =
        ((dedupByName mesh.bones).getD j ⟨"", mat4id⟩).name :=
      list_getD_map AiBone.name (dedupByName mesh.bones) j ⟨"", mat4id⟩
    rw [← hgd]
    rw [mapFind_enumMap_nodup ((dedupByName mesh.bones).map AiBone.name) 0 j
      (dedupByName_names_nodup_all mesh.bones) hjn]
    rw [Nat.zero_add]
  · intro n hn
    rw [hmapA, hchar.2.1, hinit_map, hinit_am, List.nil_append]
    apply mapFind_enumMap_not_mem
    intro hmem
    obtain ⟨c, hc, hcn⟩ := List.mem_map.mp hmem
    exact hn (List.mem_map.mpr ⟨c, mem_dedupByName_all mesh.bones c hc, hcn⟩)

/-- Concrete skin list with two unique names and one duplicate with a
different offset, for the C9 witness. -/
def meshDup : AiMesh :=
  ⟨[⟨"A", mat4id⟩, ⟨"B", mat4id⟩, ⟨"A", translateM ⟨1, 2, 3⟩⟩]⟩

theorem c9_binding_table_witness :
    (mkAvatar scene1 meshDup).amount_of_bones = (dedupByName meshDup.bones).length ∧
    mapFind (mkAvatar scene1 meshDup).bones_map
      (((dedupByName meshDup.bones).getD 0 ⟨"", mat4id⟩).name) = some 0 ∧
    mapFind (mkAvatar scene1 meshDup).bones_map "Z" = none := by
  have h := c9_binding_table scene1 meshDup
  have hdp : dedupByName meshDup.bones = [⟨"A", mat4id⟩, ⟨"B", mat4id⟩] := by
    simp [meshDup, dedupByName]
  refine ⟨h.2.1, h.2.2.2.1 0 (by rw [hdp]; simp), h.2.2.2.2 "Z" (by simp [meshDup])⟩

end
